import Mathlib

set_option maxHeartbeats 1000000

/-!
Verification development for the claude-code-patches repository.

The repository installs runtime wrappers around process-wide primitives:
an LRU cache (`_LRUCache` in the v2.1.45 patch file, `LRUCache` in
`claude-code-cpu-patches.js`), a timer governor (`patchedSetInterval`),
memoization adapters for `crypto.createHash` digests, `JSON.parse` and
`RegExp` construction, a tiered buffer pool (`acquireBuffer` /
`releaseBuffer`), and an asynchronous batcher (`__AsyncBatcher`).

Each JavaScript structure is embedded shallowly: a JS `Map` (which
iterates in insertion order) becomes an association list whose head is
the oldest entry; mutable objects that matter only through reference
identity live in an explicit heap indexed by natural-number addresses;
fallible originals are modelled with `Except`.
-/

/-! ### Association-list primitives mirroring JS `Map` operations

A JS `Map` preserves insertion order; `map.keys().next().value` is the
head of the list, `map.set` on a fresh key appends at the tail, and
`map.delete` removes the (unique) entry for a key.  `findVal` is
`map.get`, `eraseKey` is `map.delete`.
-/

def findVal {K V : Type} [DecidableEq K] : List (K × V) → K → Option V
  | [], _ => none
  | (k', v) :: rest, k => if k' = k then some v else findVal rest k

def eraseKey {K V : Type} [DecidableEq K] : List (K × V) → K → List (K × V)
  | [], _ => []
  | (k', v) :: rest, k => if k' = k then rest else (k', v) :: eraseKey rest k

theorem findVal_append {K V : Type} [DecidableEq K] (xs ys : List (K × V)) (k : K) :
    findVal (xs ++ ys) k =
      match findVal xs k with
      | some v => some v
      | none => findVal ys k := by
  induction xs with
  | nil => simp [findVal]
  | cons p rest ih =>
    by_cases h : p.1 = k
    · simp [findVal, h]
    · simpa [findVal, h] using ih

theorem findVal_eq_none_iff {K V : Type} [DecidableEq K] (xs : List (K × V)) (k : K) :
    findVal xs k = none ↔ k ∉ xs.map Prod.fst := by
  induction xs with
  | nil => simp [findVal]
  | cons p rest ih =>
    by_cases h : p.1 = k
    · simp [findVal, h]
    · simp [findVal, h, ih, Ne.symm h]

theorem findVal_some_mem {K V : Type} [DecidableEq K] {xs : List (K × V)} {k : K} {v : V}
    (h : findVal xs k = some v) : (k, v) ∈ xs := by
  induction xs with
  | nil => simp [findVal] at h
  | cons p rest ih =>
    by_cases hk : p.1 = k
    · simp [findVal, hk] at h
      cases p
      simp_all
    · simp [findVal, hk] at h
      exact List.mem_cons_of_mem _ (ih h)

theorem eraseKey_sublist {K V : Type} [DecidableEq K] (xs : List (K × V)) (k : K) :
    (eraseKey xs k).Sublist xs := by
  induction xs with
  | nil => simp [eraseKey]
  | cons p rest ih =>
    by_cases h : p.1 = k
    · simp only [eraseKey, h, if_pos]
      exact (List.sublist_cons_self p rest)
    · simp only [eraseKey, h, if_neg, not_false_iff]
      exact List.Sublist.cons₂ p ih

theorem mem_eraseKey {K V : Type} [DecidableEq K] {xs : List (K × V)} {k : K} {e : K × V}
    (h : e ∈ eraseKey xs k) : e ∈ xs :=
  (eraseKey_sublist xs k).mem h

theorem length_eraseKey_of_some {K V : Type} [DecidableEq K] {xs : List (K × V)} {k : K} {v : V}
    (h : findVal xs k = some v) : (eraseKey xs k).length + 1 = xs.length := by
  induction xs with
  | nil => simp [findVal] at h
  | cons p rest ih =>
    by_cases hk : p.1 = k
    · simp [eraseKey, hk]
    · simp only [findVal, hk, if_neg, not_false_iff] at h
      simp [eraseKey, hk, ih h]

theorem not_mem_keys_eraseKey {K V : Type} [DecidableEq K] {xs : List (K × V)} (k : K)
    (hnd : (xs.map Prod.fst).Nodup) : k ∉ (eraseKey xs k).map Prod.fst := by
  induction xs with
  | nil => simp [eraseKey]
  | cons p rest ih =>
    simp only [List.map_cons, List.nodup_cons] at hnd
    by_cases h : p.1 = k
    · simp only [eraseKey, h, if_pos]
      rw [← h]
      exact hnd.1
    · simp only [eraseKey, h, if_neg, not_false_iff, List.map_cons, List.mem_cons]
      push_neg
      exact ⟨fun hk => h hk.symm, ih hnd.2⟩

/-! ### The LRU cache

Translation of `_LRUCache` (src/unnamed/part_001, lines 142-166; the
identical `LRUCache` appears in claude-code-cpu-patches.js lines 66-96).
State is the backing `Map` as an insertion-ordered association list.

`get`: if the key is present, delete it and re-insert it at the tail
(most recently used), returning the value; on absence return the
absence marker and leave the state unchanged.

`set`: if the key is present, delete it first; otherwise, if the map is
at capacity, delete the first (oldest) key; then append the new
binding at the tail.
-/

def lruGet {K V : Type} [DecidableEq K] (cache : List (K × V)) (k : K) :
    Option V × List (K × V) :=
  match findVal cache k with
  | some v => (some v, eraseKey cache k ++ [(k, v)])
  | none => (none, cache)

def lruSet {K V : Type} [DecidableEq K] (maxSize : Nat) (cache : List (K × V)) (k : K) (v : V) :
    List (K × V) :=
  if (findVal cache k).isSome then
    eraseKey cache k ++ [(k, v)]
  else if maxSize ≤ cache.length then
    cache.tail ++ [(k, v)]
  else
    cache ++ [(k, v)]

inductive LRUOp (K V : Type) where
  | get (k : K)
  | set (k : K) (v : V)

def lruStep {K V : Type} [DecidableEq K] (cap : Nat) (s : List (K × V)) :
    LRUOp K V → List (K × V)
  | .get k => (lruGet s k).2
  | .set k v => lruSet cap s k v

def lruRun {K V : Type} [DecidableEq K] (cap : Nat) (s : List (K × V)) :
    List (LRUOp K V) → List (K × V)
  | [] => s
  | op :: rest => lruRun cap (lruStep cap s op) rest

/-! ### Ghost-instrumented LRU run

`lruStepT` is `lruStep` with one ghost field per entry: the index of the
operation that last touched it (a `set` of that key, or a `get` hit).
The ghost never influences control flow, as the erasure theorem below
shows, and lets us state "least-recently-touched" exactly.
-/

def lruStepT {K V : Type} [DecidableEq K] (cap t : Nat) (s : List (K × V × Nat)) :
    LRUOp K V → List (K × V × Nat)
  | .get k =>
    match findVal s k with
    | some vt => eraseKey s k ++ [(k, vt.1, t)]
    | none => s
  | .set k v =>
    if (findVal s k).isSome then
      eraseKey s k ++ [(k, v, t)]
    else if cap ≤ s.length then
      s.tail ++ [(k, v, t)]
    else
      s ++ [(k, v, t)]

def lruRunT {K V : Type} [DecidableEq K] (cap t : Nat) (s : List (K × V × Nat)) :
    List (LRUOp K V) → List (K × V × Nat)
  | [] => s
  | op :: rest => lruRunT cap (t + 1) (lruStepT cap t s op) rest

def stripTouch {K V : Type} (s : List (K × V × Nat)) : List (K × V) :=
  s.map (fun e => (e.1, e.2.1))

theorem findVal_stripTouch {K V : Type} [DecidableEq K] (s : List (K × V × Nat)) (k : K) :
    findVal (stripTouch s) k = (findVal s k).map Prod.fst := by
  induction s with
  | nil => simp [stripTouch, findVal]
  | cons e rest ih =>
    by_cases h : e.1 = k
    · simp [stripTouch, findVal, h]
    · simpa [stripTouch, findVal, h] using ih

theorem eraseKey_stripTouch {K V : Type} [DecidableEq K] (s : List (K × V × Nat)) (k : K) :
    eraseKey (stripTouch s) k = stripTouch (eraseKey s k) := by
  induction s with
  | nil => simp [stripTouch, eraseKey]
  | cons e rest ih =>
    by_cases h : e.1 = k
    · simp [stripTouch, eraseKey, h]
    · simpa [stripTouch, eraseKey, h] using ih

theorem stripTouch_tail {K V : Type} (s : List (K × V × Nat)) :
    stripTouch s.tail = (stripTouch s).tail := by
  cases s <;> simp [stripTouch]

theorem stripTouch_step {K V : Type} [DecidableEq K] (cap t : Nat)
    (s : List (K × V × Nat)) (op : LRUOp K V) :
    stripTouch (lruStepT cap t s op) = lruStep cap (stripTouch s) op := by
  cases op with
  | get k =>
    simp only [lruStepT, lruStep, lruGet, findVal_stripTouch]
    cases h : findVal s k with
    | none => simp
    | some vt =>
      simp only [Option.map_some]
      rw [eraseKey_stripTouch]
      simp [stripTouch]
  | set k v =>
    simp only [lruStepT, lruStep, lruSet, findVal_stripTouch]
    cases h : findVal s k with
    | none =>
      simp only [Option.map_none, Option.isSome_none, Bool.false_eq_true, if_false]
      have hlen : (stripTouch s).length = s.length := by simp [stripTouch]
      by_cases hc : cap ≤ s.length
      · simp [hc, hlen, stripTouch_tail, stripTouch]
      · simp [hc, hlen, stripTouch]
    | some vt =>
      simp only [Option.map_some, Option.isSome_some, if_true]
      rw [eraseKey_stripTouch]
      simp [stripTouch]

theorem stripTouch_run {K V : Type} [DecidableEq K] (cap : Nat)
    (ops : List (LRUOp K V)) :
    ∀ (t : Nat) (s : List (K × V × Nat)),
      stripTouch (lruRunT cap t s ops) = lruRun cap (stripTouch s) ops := by
  induction ops with
  | nil => intro t s; rfl
  | cons op rest ih =>
    intro t s
    simp only [lruRunT, lruRun]
    rw [ih, stripTouch_step]

/-- Well-formedness of a ghost-instrumented LRU state at time `t`:
entries carry strictly increasing last-touch times (head = least
recently touched), all times are in the past, keys are distinct, and
the size bound holds. -/
structure LruWF (cap t : Nat) {K V : Type} (s : List (K × V × Nat)) : Prop where
  sorted : s.Pairwise (fun a b => a.2.2 < b.2.2)
  bounded : ∀ e ∈ s, e.2.2 < t
  nodup : (s.map Prod.fst).Nodup
  size : s.length ≤ cap

theorem lruWF_append {K V : Type} [DecidableEq K] {cap t : Nat}
    {x : List (K × V × Nat)} {k : K} {v : V}
    (hs : x.Pairwise (fun a b => a.2.2 < b.2.2))
    (hb : ∀ e ∈ x, e.2.2 < t)
    (hn : (x.map Prod.fst).Nodup)
    (hk : k ∉ x.map Prod.fst)
    (hl : x.length + 1 ≤ cap) :
    LruWF cap (t + 1) (x ++ [(k, v, t)]) where
  sorted := by
    rw [List.pairwise_append]
    refine ⟨hs, List.pairwise_singleton _ _, ?_⟩
    intro a ha b hb'
    simp only [List.mem_singleton] at hb'
    subst hb'
    exact hb a ha
  bounded := by
    intro e he
    rcases List.mem_append.1 he with h | h
    · exact Nat.lt_succ_of_lt (hb e h)
    · simp only [List.mem_singleton] at h
      subst h
      exact Nat.lt_succ_self t
  nodup := by
    rw [List.map_append]
    simp only [List.map_cons, List.map_nil]
    rw [List.nodup_append]
    exact ⟨hn, List.nodup_singleton _, by simpa using hk⟩
  size := by simpa using hl

theorem lruStepT_wf {K V : Type} [DecidableEq K] {cap t : Nat} (hcap : 1 ≤ cap)
    {s : List (K × V × Nat)} (hwf : LruWF cap t s) (op : LRUOp K V) :
    LruWF cap (t + 1) (lruStepT cap t s op) := by
  have hesub : ∀ k : K, ((eraseKey s k).map Prod.fst).Sublist (s.map Prod.fst) :=
    fun k => (eraseKey_sublist s k).map Prod.fst
  cases op with
  | get k =>
    simp only [lruStepT]
    cases h : findVal s k with
    | none =>
      exact ⟨hwf.sorted, fun e he => Nat.lt_succ_of_lt (hwf.bounded e he), hwf.nodup, hwf.size⟩
    | some vt =>
      refine lruWF_append ?_ ?_ ?_ ?_ ?_
      · exact hwf.sorted.sublist (eraseKey_sublist s k)
      · exact fun e he => hwf.bounded e (mem_eraseKey he)
      · exact hwf.nodup.sublist (hesub k)
      · exact not_mem_keys_eraseKey k hwf.nodup
      · rw [length_eraseKey_of_some h]
        exact hwf.size
  | set k v =>
    simp only [lruStepT]
    cases h : findVal s k with
    | some vt =>
      simp only [Option.isSome_some, if_true]
      refine lruWF_append ?_ ?_ ?_ ?_ ?_
      · exact hwf.sorted.sublist (eraseKey_sublist s k)
      · exact fun e he => hwf.bounded e (mem_eraseKey he)
      · exact hwf.nodup.sublist (hesub k)
      · exact not_mem_keys_eraseKey k hwf.nodup
      · rw [length_eraseKey_of_some h]
        exact hwf.size
    | none =>
      simp only [Option.isSome_none, Bool.false_eq_true, if_false]
      have hkabs : k ∉ s.map Prod.fst := (findVal_eq_none_iff s k).1 h
      by_cases hc : cap ≤ s.length
      · simp only [hc, if_true]
        have hne : s ≠ [] := by
          intro hnil
          rw [hnil] at hc
          simp at hc
          omega
        refine lruWF_append ?_ ?_ ?_ ?_ ?_
        · exact hwf.sorted.sublist (List.tail_sublist s)
        · exact fun e he => hwf.bounded e ((List.tail_sublist s).mem he)
        · exact hwf.nodup.sublist ((List.tail_sublist s).map Prod.fst)
        · intro hmem
          exact hkabs (((List.tail_sublist s).map Prod.fst).mem hmem)
        · have : s.length = cap := Nat.le_antisymm hwf.size hc
          have hpos : 0 < s.length := by omega
          rw [List.length_tail]
          omega
      · simp only [hc, if_false]
        refine lruWF_append hwf.sorted hwf.bounded hwf.nodup hkabs ?_
        omega

theorem lruRunT_wf {K V : Type} [DecidableEq K] {cap : Nat} (hcap : 1 ≤ cap)
    (ops : List (LRUOp K V)) :
    ∀ (t : Nat) (s : List (K × V × Nat)), LruWF cap t s →
      LruWF cap (t + ops.length) (lruRunT cap t s ops) := by
  induction ops with
  | nil => intro t s h; simpa using h
  | cons op rest ih =>
    intro t s h
    simp only [lruRunT, List.length_cons]
    have := ih (t + 1) _ (lruStepT_wf hcap h op)
    have harith : t + 1 + rest.length = t + (rest.length + 1) := by omega
    rwa [harith] at this

theorem lruWF_empty {K V : Type} (cap : Nat) : LruWF cap 0 ([] : List (K × V × Nat)) where
  sorted := List.Pairwise.nil
  bounded := by intro e he; simp at he
  nodup := by simp
  size := Nat.zero_le _

/-- C1 (amended): for every capacity of at least 1 and every sequence of
`set`/`get` operations run from the empty LRU cache, (i) the size never
exceeds the capacity, (ii) the ghost-instrumented run erases to the
plain run, (iii) `get` on an absent key returns the absence marker and
leaves the state unchanged (the operation is total, so it cannot
throw), (iv) a `get` hit returns the stored value and moves the entry
to the most-recently-used (tail) position, and (v) when a `set` inserts
a new key while the cache is full, the entry evicted is the head entry,
whose last-touch time is strictly smaller than that of every other
entry — the least-recently-touched one — and its key is absent
afterwards.  (The original claim, quantified over every capacity, fails
at capacity 0; see the counterexample.) -/
theorem C1_lru_amended {K V : Type} [DecidableEq K] (cap : Nat) (hcap : 1 ≤ cap)
    (ops : List (LRUOp K V)) :
    (lruRun cap [] ops).length ≤ cap
    ∧ stripTouch (lruRunT cap 0 [] ops) = lruRun cap [] ops
    ∧ (∀ k, findVal (lruRun cap [] ops) k = none →
        lruGet (lruRun cap [] ops) k = (none, lruRun cap [] ops))
    ∧ (∀ k v, findVal (lruRun cap [] ops) k = some v →
        (lruGet (lruRun cap [] ops) k).1 = some v
        ∧ ((lruGet (lruRun cap [] ops) k).2).getLast? = some (k, v))
    ∧ (∀ k v t', findVal (lruRunT cap 0 [] ops) k = none →
        cap ≤ (lruRunT cap 0 [] ops).length →
        ∃ e rest, lruRunT cap 0 [] ops = e :: rest
          ∧ (∀ e₂ ∈ rest, e.2.2 < e₂.2.2)
          ∧ lruStepT cap t' (lruRunT cap 0 [] ops) (LRUOp.set k v) = rest ++ [(k, v, t')]
          ∧ findVal (rest ++ [(k, v, t')]) e.1 = none) := by
  have hwf : LruWF cap (0 + ops.length) (lruRunT cap 0 [] ops) :=
    lruRunT_wf hcap ops 0 [] (lruWF_empty cap)
  have hstrip : stripTouch (lruRunT cap 0 [] ops) = lruRun cap [] ops := by
    have := stripTouch_run (K := K) (V := V) cap ops 0 []
    simpa [stripTouch] using this
  have hlen : (lruRun cap [] ops).length = (lruRunT cap 0 [] ops).length := by
    rw [← hstrip]; simp [stripTouch]
  refine ⟨?_, hstrip, ?_, ?_, ?_⟩
  · rw [hlen]; exact hwf.size
  · intro k hk
    simp [lruGet, hk]
  · intro k v hk
    constructor
    · simp [lruGet, hk]
    · simp [lruGet, hk, List.getLast?_concat]
  · intro k v t' habs hfull
    have hlenT : (lruRunT cap 0 [] ops).length = cap :=
      Nat.le_antisymm hwf.size hfull
    have hne : lruRunT cap 0 [] ops ≠ [] := by
      intro h0
      rw [h0] at hlenT
      simp at hlenT
      omega
    obtain ⟨e, rest, hcons⟩ := List.exists_cons_of_ne_nil hne
    refine ⟨e, rest, hcons, ?_, ?_, ?_⟩
    · have := hwf.sorted
      rw [hcons, List.pairwise_cons] at this
      exact this.1
    · simp only [lruStepT, habs, Option.isSome_none, Bool.false_eq_true, if_false, hfull,
        if_true]
      rw [hcons]
      rfl
    · have hkeys : k ∉ (lruRunT cap 0 [] ops).map Prod.fst :=
        (findVal_eq_none_iff _ k).1 habs
      have hek : e.1 ≠ k := by
        intro h
        apply hkeys
        rw [hcons, ← h]
        simp
      have hnodup := hwf.nodup
      rw [hcons, List.map_cons, List.nodup_cons] at hnodup
      have hrest : findVal rest e.1 = none := (findVal_eq_none_iff rest e.1).2 hnodup.1
      have hke : k ≠ e.1 := Ne.symm hek
      rw [findVal_append, hrest]
      simp [findVal, hke]

/-- C1 counterexample: the claim quantifies over every capacity, but for
an LRU cache constructed with capacity 0 a single `set` already drives
the size to 1, exceeding the capacity (the JS `set` deletes the first
key of the already-empty backing map, a no-op, and then inserts). -/
theorem C1_lru_counterexample :
    (lruRun (K := Nat) (V := Nat) 0 [] [LRUOp.set 1 10]).length = 1
    ∧ ¬ (lruRun (K := Nat) (V := Nat) 0 [] [LRUOp.set 1 10]).length ≤ 0 := by
  decide

def lruOpsDemo : List (LRUOp Nat Nat) :=
  [LRUOp.set 1 10, LRUOp.set 2 20, LRUOp.set 3 30, LRUOp.get 1, LRUOp.set 4 40]

/-- C1 witness: the amended theorem applied to capacity 3 and a concrete
access pattern (key 2 is evicted as least recently touched; a further
insertion would evict key 3, the current head). -/
theorem C1_lru_witness :
    (lruRun 3 [] lruOpsDemo).length ≤ 3
    ∧ lruGet (lruRun 3 [] lruOpsDemo) 2 = (none, lruRun 3 [] lruOpsDemo)
    ∧ (lruGet (lruRun 3 [] lruOpsDemo) 1).1 = some 10
    ∧ ((lruGet (lruRun 3 [] lruOpsDemo) 1).2).getLast? = some (1, 10)
    ∧ (∃ e rest, lruRunT 3 0 [] lruOpsDemo = e :: rest
        ∧ (∀ e₂ ∈ rest, e.2.2 < e₂.2.2)
        ∧ lruStepT 3 5 (lruRunT 3 0 [] lruOpsDemo) (LRUOp.set 5 50) = rest ++ [(5, 50, 5)]
        ∧ findVal (rest ++ [(5, 50, 5)]) e.1 = none) := by
  obtain ⟨h1, h2, h3, h4, h5⟩ := C1_lru_amended 3 (by decide) lruOpsDemo
  exact ⟨h1, h3 2 (by decide), (h4 1 10 (by decide)).1, (h4 1 10 (by decide)).2,
    h5 5 50 5 (by decide) (by decide)⟩

/-! ### Timer Governor

Translation of `patchedSetInterval` (src/unnamed/part_001, lines
47-63).  Callback reference identity is modelled by values of an
arbitrary type with decidable equality; `Bun.gc`, when the `Bun` global
is defined, is the optional known expensive callback.  A registration's
outcome is the callback actually registered (the original, or the
substituted non-blocking 120-second GC closure) together with the
effective delay.  A JS delay is a number or a value of another type
(the source checks `typeof delay === 'number'`). -/

inductive JSDelay where
  | num (n : Int)
  | other
  deriving DecidableEq

inductive GovCB (B : Type) where
  | original (f : B)
  | gcNonBlocking
  deriving DecidableEq

def delayThrottlable : JSDelay → Bool
  | JSDelay.num n => decide (0 < n) && decide (n ≤ 50)
  | JSDelay.other => false

def patchedSetInterval {B : Type} [DecidableEq B] (throttleTimers : Bool)
    (bunGc : Option B) (fn : B) (delay : JSDelay) : GovCB B × JSDelay :=
  if bunGc = some fn then
    (GovCB.gcNonBlocking, JSDelay.num 120000)
  else if throttleTimers && delayThrottlable delay then
    (GovCB.original fn, JSDelay.num 100)
  else
    (GovCB.original fn, delay)

/-- C3 (amended): the governor substitutes the non-blocking callback
with effective delay 120000 ms whenever the callback is
reference-identical to the known expensive callback, regardless of the
opt-out flag; otherwise, when governance is enabled and the requested
delay is a number that is strictly positive and at most 50 ms, the
original callback is registered with effective delay 100 ms; in every
other case — governance disabled, non-numeric delay, delay above 50 ms,
or delay not strictly positive — the registration passes through with
callback and delay unchanged.  (The original claim said every delay at
or below 50 ms is clamped; the code additionally requires the delay to
be strictly positive, so a 0 ms registration passes through — see the
counterexample.) -/
theorem C3_timer_governor_amended {B : Type} [DecidableEq B]
    (throttleTimers : Bool) (bunGc : Option B) (fn : B) (delay : JSDelay) :
    (bunGc = some fn →
      patchedSetInterval throttleTimers bunGc fn delay =
        (GovCB.gcNonBlocking, JSDelay.num 120000))
    ∧ (∀ n : Int, bunGc ≠ some fn → throttleTimers = true → delay = JSDelay.num n →
        0 < n → n ≤ 50 →
        patchedSetInterval throttleTimers bunGc fn delay =
          (GovCB.original fn, JSDelay.num 100))
    ∧ (bunGc ≠ some fn → (throttleTimers = false ∨ delayThrottlable delay = false) →
        patchedSetInterval throttleTimers bunGc fn delay =
          (GovCB.original fn, delay)) := by
  refine ⟨?_, ?_, ?_⟩
  · intro h
    simp [patchedSetInterval, h]
  · intro n hg ht hd h0 h50
    subst hd
    simp [patchedSetInterval, hg, ht, delayThrottlable, h0, h50]
  · intro hg hcase
    rcases hcase with h | h <;> simp [patchedSetInterval, hg, h]

/-- C3 counterexample: a repeating callback registered with delay 0 ms,
with governance enabled and a known expensive callback present but not
equal to the registered callback, passes through with delay 0 instead
of being clamped to 100 ms, although 0 is at or below 50. -/
theorem C3_timer_governor_counterexample :
    patchedSetInterval (B := Nat) true (some 0) 1 (JSDelay.num 0) =
      (GovCB.original 1, JSDelay.num 0)
    ∧ (0 : Int) ≤ 50
    ∧ patchedSetInterval (B := Nat) true (some 0) 1 (JSDelay.num 0) ≠
      (GovCB.original 1, JSDelay.num 100) := by
  decide

/-- C3 witness: the amended theorem applied to the three scenarios named
by the specification — a 16 ms registration with governance enabled is
clamped to 100 ms, the expensive callback registered at 1000 ms is
substituted at 120000 ms, and a 16 ms registration with governance
disabled is untouched. -/
theorem C3_timer_governor_witness :
    patchedSetInterval (B := Nat) true (some 7) 3 (JSDelay.num 16) =
      (GovCB.original 3, JSDelay.num 100)
    ∧ patchedSetInterval (B := Nat) true (some 7) 7 (JSDelay.num 1000) =
      (GovCB.gcNonBlocking, JSDelay.num 120000)
    ∧ patchedSetInterval (B := Nat) false (some 7) 3 (JSDelay.num 16) =
      (GovCB.original 3, JSDelay.num 16) := by
  obtain ⟨h1a, h1b, h1c⟩ := C3_timer_governor_amended (B := Nat) true (some 7) 3
    (JSDelay.num 16)
  obtain ⟨h2a, _, _⟩ := C3_timer_governor_amended (B := Nat) true (some 7) 7
    (JSDelay.num 1000)
  obtain ⟨_, _, h3c⟩ := C3_timer_governor_amended (B := Nat) false (some 7) 3
    (JSDelay.num 16)
  exact ⟨h1b 16 (by decide) rfl rfl (by decide) (by decide),
    h2a rfl, h3c (by decide) (Or.inl rfl)⟩

/-! ### Interception Registry

Translation of `applyPatches` (claude-code-cpu-patches.js, lines
241-298) at the level of the one global binding it replaces.  Each call
executes `const originalCreateHash = crypto.createHash;
crypto.createHash = function (algorithm) ... ` with no guard, marker,
or already-installed check, so each call adds one wrapper layer that
captures whatever the binding held before.  The wrapper body contains
exactly one unconditional call to its captured original
(`originalCreateHash.call(this, algorithm)`), so a logical call entering
the outermost layer reaches the true original exactly once however many
layers there are. -/

inductive HashBinding where
  | orig
  | wrapper (inner : HashBinding)
  deriving DecidableEq

def applyPatchesCreateHash (b : HashBinding) : HashBinding :=
  HashBinding.wrapper b

def wrapperLayers : HashBinding → Nat
  | HashBinding.orig => 0
  | HashBinding.wrapper b => wrapperLayers b + 1

def trueOriginalCallsPerInvocation : HashBinding → Nat
  | HashBinding.orig => 1
  | HashBinding.wrapper b => trueOriginalCallsPerInvocation b

/-- C4 (amended): `applyPatches` is not idempotent — it has no
installed-marker check, so running it twice leaves two wrapper layers
around `crypto.createHash`, not one; nevertheless one logical call to
the intercepted primitive still invokes the true captured original
exactly once (each layer delegates to the binding it captured exactly
once), not once per installation. -/
theorem C4_install_amended :
    wrapperLayers (applyPatchesCreateHash (applyPatchesCreateHash HashBinding.orig)) = 2
    ∧ trueOriginalCallsPerInvocation
        (applyPatchesCreateHash (applyPatchesCreateHash HashBinding.orig)) = 1
    ∧ (∀ b : HashBinding,
        trueOriginalCallsPerInvocation (applyPatchesCreateHash b) =
          trueOriginalCallsPerInvocation b) := by
  refine ⟨rfl, rfl, fun b => rfl⟩

/-- C4 counterexample: after running the install procedure twice the
intercepted symbol carries two wrapper layers, not exactly one as the
claim states. -/
theorem C4_install_counterexample :
    wrapperLayers (applyPatchesCreateHash (applyPatchesCreateHash HashBinding.orig)) ≠ 1 := by
  decide

/-! ### Structured-parse memoization adapter (patchedParse)

Translation of `JSON.parse = function patchedParse(text, reviver)`
(src/unnamed/part_001, lines 235-251), restricted to the cacheable call
shape (string input, no reviver), which is the shape the claim is
about.  JSON values are primitives or references into an explicit heap
of container objects; reference identity is address equality.  On a
cache hit for a container, the code returns `[...cached]` or
`{...cached}` — a fresh container holding the same top-level contents —
modelled as allocating a fresh address carrying the same `JObj` value
(nested references inside it stay shared, as a JS spread shares them).
On a miss the original parse runs (abstracted as `parse0`, which may
allocate and may fail) and the resulting value — the reference itself
for containers — is cached and returned. -/

inductive JPrim where
  | jnull
  | jbool (b : Bool)
  | jnum (n : Int)
  | jstr (s : String)
  deriving DecidableEq

inductive JVal where
  | prim (p : JPrim)
  | ref (a : Nat)
  deriving DecidableEq

inductive JObj where
  | arr (elems : List JVal)
  | obj (fields : List (String × JVal))
  deriving DecidableEq

structure Heap where
  objs : List (Nat × JObj)
  next : Nat
  deriving DecidableEq

def heapGet (h : Heap) (a : Nat) : Option JObj :=
  findVal h.objs a

def heapAlloc (h : Heap) (o : JObj) : Nat × Heap :=
  (h.next, ⟨h.objs ++ [(h.next, o)], h.next + 1⟩)

def setField : JObj → String → JVal → JObj
  | JObj.obj fields, f, v =>
    if (findVal fields f).isSome then
      JObj.obj (fields.map (fun p => if p.1 = f then (p.1, v) else p))
    else
      JObj.obj (fields ++ [(f, v)])
  | JObj.arr elems, _, _ => JObj.arr elems

def getField : JObj → String → Option JVal
  | JObj.obj fields, f => findVal fields f
  | JObj.arr _, _ => none

def heapSetField (h : Heap) (a : Nat) (f : String) (v : JVal) : Heap :=
  ⟨h.objs.map (fun p => if p.1 = a then (p.1, setField p.2 f v) else p), h.next⟩

structure ParseState where
  heap : Heap
  cache : List (String × JVal)
  deriving DecidableEq

def patchedParse {E : Type} (parse0 : String → Heap → Except E (JVal × Heap))
    (st : ParseState) (text : String) : Except E JVal × ParseState :=
  match lruGet st.cache text with
  | (some cached, cache') =>
    match cached with
    | JVal.ref a =>
      let o := (heapGet st.heap a).getD (JObj.obj [])
      let alloc := heapAlloc st.heap o
      (Except.ok (JVal.ref alloc.1), ⟨alloc.2, cache'⟩)
    | JVal.prim p => (Except.ok (JVal.prim p), ⟨st.heap, cache'⟩)
  | (none, _) =>
    match parse0 text st.heap with
    | Except.error e => (Except.error e, st)
    | Except.ok vh => (Except.ok vh.1, ⟨vh.2, lruSet 200 st.cache text vh.1⟩)

theorem findVal_map_update {K V : Type} [DecidableEq K] (xs : List (K × V)) (a0 : K)
    (g : V → V) (k : K) (hne : k ≠ a0) :
    findVal (xs.map (fun p => if p.1 = a0 then (p.1, g p.2) else p)) k = findVal xs k := by
  induction xs with
  | nil => simp [findVal]
  | cons p rest ih =>
    simp only [List.map_cons]
    by_cases h : p.1 = a0
    · rw [if_pos h]
      have hpk : ¬ p.1 = k := fun hc => hne (hc ▸ h)
      simp [findVal, hpk, ih]
    · rw [if_neg h]
      by_cases hk : p.1 = k
      · simp [findVal, hk]
      · simp [findVal, hk, ih]

theorem keys_map_update {K V : Type} [DecidableEq K] (xs : List (K × V)) (a0 : K)
    (g : V → V) :
    (xs.map (fun p => if p.1 = a0 then (p.1, g p.2) else p)).map Prod.fst
      = xs.map Prod.fst := by
  induction xs with
  | nil => simp
  | cons p rest ih =>
    by_cases h : p.1 = a0 <;> simp [h, ih]

theorem findVal_heap_next {h : Heap} (hwf : ∀ p ∈ h.objs, p.1 < h.next) :
    findVal h.objs h.next = none := by
  rw [findVal_eq_none_iff]
  intro hmem
  obtain ⟨p, hp, hpeq⟩ := List.mem_map.1 hmem
  have := hwf p hp
  omega

/-- C2 (amended): starting from any adapter state whose cache already
binds the text to a cached container reference (i.e. the first, miss,
call has happened), every further call on that text is a cache hit that
returns a freshly allocated shallow copy: the returned reference is
fresh (in particular different from the cached reference), two
successive hit calls return two distinct references, and mutating the
top level of a hit's returned container does not change the contents a
subsequent call on the same text hands back.  (The original claim's
"mutating one returned result does not change what a subsequent call
returns" fails for the result of the initial miss call, which is the
cached reference itself — see the counterexample.) -/
theorem C2_parse_amended {E : Type} (parse0 : String → Heap → Except E (JVal × Heap))
    (st : ParseState) (text : String) (a : Nat) (o : JObj)
    (hwf : ∀ p ∈ st.heap.objs, p.1 < st.heap.next)
    (hnd : (st.cache.map Prod.fst).Nodup)
    (hc : findVal st.cache text = some (JVal.ref a))
    (ho : heapGet st.heap a = some o) :
    ∀ r1 st1, patchedParse parse0 st text = (r1, st1) →
      r1 = Except.ok (JVal.ref st.heap.next)
      ∧ st.heap.next ≠ a
      ∧ heapGet st1.heap st.heap.next = some o
      ∧ (∀ r2 st2, patchedParse parse0 st1 text = (r2, st2) →
          r2 = Except.ok (JVal.ref (st.heap.next + 1))
          ∧ JVal.ref (st.heap.next + 1) ≠ JVal.ref st.heap.next)
      ∧ (∀ f w r2 st2,
          patchedParse parse0 ⟨heapSetField st1.heap st.heap.next f w, st1.cache⟩ text
            = (r2, st2) →
          r2 = Except.ok (JVal.ref (st.heap.next + 1))
          ∧ heapGet st2.heap (st.heap.next + 1) = some o) := by
  have ha_lt : a < st.heap.next := by
    have hmem := findVal_some_mem ho
    exact hwf (a, o) hmem
  have hcall1 : patchedParse parse0 st text =
      (Except.ok (JVal.ref st.heap.next),
        ⟨⟨st.heap.objs ++ [(st.heap.next, o)], st.heap.next + 1⟩,
          eraseKey st.cache text ++ [(text, JVal.ref a)]⟩) := by
    simp [patchedParse, lruGet, hc, ho, heapAlloc]
  intro r1 st1 h1
  rw [hcall1] at h1
  have hr1 : r1 = Except.ok (JVal.ref st.heap.next) := (Prod.mk.injEq _ _ _ _ ▸ h1).1.symm
  have hst1 : st1 = ⟨⟨st.heap.objs ++ [(st.heap.next, o)], st.heap.next + 1⟩,
      eraseKey st.cache text ++ [(text, JVal.ref a)]⟩ := (Prod.mk.injEq _ _ _ _ ▸ h1).2.symm
  subst hst1
  have hnext_none : findVal st.heap.objs st.heap.next = none := findVal_heap_next hwf
  have hcache1 : findVal (eraseKey st.cache text ++ [(text, JVal.ref a)]) text =
      some (JVal.ref a) := by
    have herase : findVal (eraseKey st.cache text) text = none :=
      (findVal_eq_none_iff _ _).2 (not_mem_keys_eraseKey text hnd)
    rw [findVal_append, herase]
    simp [findVal]
  have hheap1a : findVal (st.heap.objs ++ [(st.heap.next, o)]) a = some o := by
    rw [findVal_append]
    have : findVal st.heap.objs a = some o := ho
    rw [this]
  have hheap1n : findVal (st.heap.objs ++ [(st.heap.next, o)]) st.heap.next = some o := by
    rw [findVal_append, hnext_none]
    simp [findVal]
  refine ⟨hr1, by omega, ?_, ?_, ?_⟩
  · exact hheap1n
  · intro r2 st2 h2
    have hcall2 : patchedParse parse0 (⟨⟨st.heap.objs ++ [(st.heap.next, o)],
        st.heap.next + 1⟩, eraseKey st.cache text ++ [(text, JVal.ref a)]⟩ : ParseState)
        text = (Except.ok (JVal.ref (st.heap.next + 1)),
          ⟨⟨(st.heap.objs ++ [(st.heap.next, o)]) ++ [(st.heap.next + 1, o)],
              st.heap.next + 2⟩,
            eraseKey (eraseKey st.cache text ++ [(text, JVal.ref a)]) text
              ++ [(text, JVal.ref a)]⟩) := by
      simp [patchedParse, lruGet, hcache1, heapGet, heapAlloc, hheap1a]
    rw [hcall2] at h2
    have hr2 : r2 = Except.ok (JVal.ref (st.heap.next + 1)) :=
      (Prod.mk.injEq _ _ _ _ ▸ h2).1.symm
    exact ⟨hr2, by simp⟩
  · intro f w r2 st2 h2
    have hmuta : findVal ((st.heap.objs ++ [(st.heap.next, o)]).map
        (fun p => if p.1 = st.heap.next then (p.1, setField p.2 f w) else p)) a = some o := by
      have h' := findVal_map_update (st.heap.objs ++ [(st.heap.next, o)]) st.heap.next
        (fun v => setField v f w) a (by omega)
      exact h'.trans hheap1a
    have hmutn1 : findVal ((st.heap.objs ++ [(st.heap.next, o)]).map
        (fun p => if p.1 = st.heap.next then (p.1, setField p.2 f w) else p))
        (st.heap.next + 1) = none := by
      rw [findVal_eq_none_iff]
      have hkeys := keys_map_update (st.heap.objs ++ [(st.heap.next, o)]) st.heap.next
        (fun v => setField v f w)
      rw [hkeys]
      intro hmem
      obtain ⟨p, hp, hpeq⟩ := List.mem_map.1 hmem
      rcases List.mem_append.1 hp with hp | hp
      · have := hwf p hp
        omega
      · simp only [List.mem_singleton] at hp
        rw [hp] at hpeq
        simp at hpeq
    have hcall2 : patchedParse parse0 (⟨heapSetField ⟨st.heap.objs ++ [(st.heap.next, o)],
        st.heap.next + 1⟩ st.heap.next f w,
        eraseKey st.cache text ++ [(text, JVal.ref a)]⟩ : ParseState) text =
        (Except.ok (JVal.ref (st.heap.next + 1)),
          ⟨⟨((st.heap.objs ++ [(st.heap.next, o)]).map
              (fun p => if p.1 = st.heap.next then (p.1, setField p.2 f w) else p))
              ++ [(st.heap.next + 1, o)], st.heap.next + 1 + 1⟩,
            eraseKey (eraseKey st.cache text ++ [(text, JVal.ref a)]) text
              ++ [(text, JVal.ref a)]⟩) := by
      simp only [patchedParse, lruGet, hcache1, heapGet, heapSetField, heapAlloc, hmuta,
        Option.getD_some]
    rw [hcall2] at h2
    have hr2 : r2 = Except.ok (JVal.ref (st.heap.next + 1)) :=
      (Prod.mk.injEq _ _ _ _ ▸ h2).1.symm
    have hst2 := (Prod.mk.injEq _ _ _ _ ▸ h2).2.symm
    subst hst2
    refine ⟨hr2, ?_⟩
    show findVal _ (st.heap.next + 1) = some o
    rw [findVal_append, hmutn1]
    simp [findVal]

instance {E α : Type} [DecidableEq E] [DecidableEq α] : DecidableEq (Except E α) :=
  fun a b =>
    match a, b with
    | Except.ok x, Except.ok y => decidable_of_iff (x = y) (by simp)
    | Except.error e, Except.error f => decidable_of_iff (e = f) (by simp)
    | Except.ok _, Except.error _ => isFalse (by simp)
    | Except.error _, Except.ok _ => isFalse (by simp)

def parse0Demo (_text : String) (h : Heap) : Except String (JVal × Heap) :=
  let alloc := heapAlloc h (JObj.obj [("a", JVal.prim (JPrim.jnum 1))])
  Except.ok (JVal.ref alloc.1, alloc.2)

def emptyParseState : ParseState := ⟨⟨[], 0⟩, []⟩

def parseStateAfterMiss : ParseState := (patchedParse parse0Demo emptyParseState "t").2

def parseStateMutated : ParseState :=
  ⟨heapSetField parseStateAfterMiss.heap 0 "a" (JVal.prim (JPrim.jnum 99)),
    parseStateAfterMiss.cache⟩

/-- C2 counterexample: the first (miss) call of the patched parse
returns the very reference that is stored in the cache, so mutating the
first call's returned object changes what a subsequent call on the same
text returns: without the mutation the second call hands back content
with field "a" equal to 1, after mutating the first result it hands
back content with field "a" equal to 99. -/
theorem C2_parse_counterexample :
    (patchedParse parse0Demo emptyParseState "t").1 = Except.ok (JVal.ref 0)
    ∧ findVal parseStateAfterMiss.cache "t" = some (JVal.ref 0)
    ∧ (patchedParse parse0Demo parseStateAfterMiss "t").1 = Except.ok (JVal.ref 1)
    ∧ (heapGet (patchedParse parse0Demo parseStateAfterMiss "t").2.heap 1).bind
        (fun o => getField o "a") = some (JVal.prim (JPrim.jnum 1))
    ∧ (patchedParse parse0Demo parseStateMutated "t").1 = Except.ok (JVal.ref 1)
    ∧ (heapGet (patchedParse parse0Demo parseStateMutated "t").2.heap 1).bind
        (fun o => getField o "a") = some (JVal.prim (JPrim.jnum 99))
    ∧ JVal.prim (JPrim.jnum 99) ≠ JVal.prim (JPrim.jnum 1) := by
  decide

def parseHitState : ParseState :=
  ⟨⟨[(0, JObj.obj [("a", JVal.prim (JPrim.jnum 1))])], 1⟩, [("t", JVal.ref 0)]⟩

/-- C2 witness: the amended theorem applied to a concrete state whose
cache binds "t" to a container at address 0 — the hit returns fresh
address 1 with the cached content, a second hit returns address 2, and
mutating the first hit's result leaves the content handed back by the
next call unchanged. -/
theorem C2_parse_witness :
    (patchedParse parse0Demo parseHitState "t").1 = Except.ok (JVal.ref 1)
    ∧ heapGet (patchedParse parse0Demo parseHitState "t").2.heap 1 =
        some (JObj.obj [("a", JVal.prim (JPrim.jnum 1))])
    ∧ (patchedParse parse0Demo (patchedParse parse0Demo parseHitState "t").2 "t").1 =
        Except.ok (JVal.ref 2)
    ∧ (patchedParse parse0Demo
        ⟨heapSetField (patchedParse parse0Demo parseHitState "t").2.heap 1 "a"
            (JVal.prim (JPrim.jnum 99)),
          (patchedParse parse0Demo parseHitState "t").2.cache⟩ "t").1 =
        Except.ok (JVal.ref 2)
    ∧ heapGet (patchedParse parse0Demo
        ⟨heapSetField (patchedParse parse0Demo parseHitState "t").2.heap 1 "a"
            (JVal.prim (JPrim.jnum 99)),
          (patchedParse parse0Demo parseHitState "t").2.cache⟩ "t").2.heap 2 =
        some (JObj.obj [("a", JVal.prim (JPrim.jnum 1))]) := by
  obtain ⟨h1, _, h3, h4, h5⟩ := C2_parse_amended parse0Demo parseHitState "t" 0
    (JObj.obj [("a", JVal.prim (JPrim.jnum 1))])
    (by decide) (by decide) (by decide) (by decide)
    (patchedParse parse0Demo parseHitState "t").1
    (patchedParse parse0Demo parseHitState "t").2 rfl
  refine ⟨h1, h3, ?_, ?_, ?_⟩
  · exact (h4 _ _ rfl).1
  · exact (h5 "a" (JVal.prim (JPrim.jnum 99)) _ _ rfl).1
  · exact (h5 "a" (JVal.prim (JPrim.jnum 99)) _ _ rfl).2

/-! ### Digest memoization adapter (cachedCreateHash)

Translation of the wrapped `hash.digest` produced by
`crypto.createHash = function cachedCreateHash(algorithm)`
(src/unnamed/part_001, lines 175-209; the same wrapper shape appears in
claude-code-cpu-patches.js lines 249-277).  A wrapped hash object's
relevant state is its algorithm tag and the list of accumulated update
chunks (each `update` pushes the chunk's string form and also feeds the
real digester, so the real digester's accumulated input is exactly the
concatenation of the chunks).  The real digest computation is
abstracted as `digestFn algorithm input encoding`, which may fail; the
shared 500-entry LRU digest cache threads through. -/

def totalLen (chunks : List String) : Nat :=
  chunks.foldl (fun sum c => sum + c.length) 0

def hashCacheKey (algorithm : String) (chunks : List String) : String :=
  algorithm ++ ":" ++ String.join chunks

def hashDigest {E : Type} (digestFn : String → String → String → Except E String)
    (cache : List (String × String)) (algorithm : String) (chunks : List String)
    (encoding : String) : Except E String × List (String × String) :=
  if totalLen chunks < 10000 then
    match lruGet cache (hashCacheKey algorithm chunks) with
    | (some v, cache') => (Except.ok v, cache')
    | (none, cache') =>
      match digestFn algorithm (String.join chunks) encoding with
      | Except.error e => (Except.error e, cache')
      | Except.ok r => (Except.ok r, lruSet 500 cache' (hashCacheKey algorithm chunks) r)
  else
    match digestFn algorithm (String.join chunks) encoding with
    | Except.error e => (Except.error e, cache)
    | Except.ok r => (Except.ok r, cache)

theorem totalLen_aux (chunks : List String) (n : Nat) :
    chunks.foldl (fun sum c => sum + c.length) n = n + (chunks.map String.length).sum := by
  induction chunks generalizing n with
  | nil => simp
  | cons c rest ih =>
    simp only [List.foldl_cons, List.map_cons, List.sum_cons, ih]
    omega

theorem totalLen_eq_length_join (chunks : List String) :
    totalLen chunks = (String.join chunks).length := by
  rw [String.join_eq]
  simp only [String.length]
  rw [List.length_flatten, List.map_map]
  have := totalLen_aux chunks 0
  simp only [totalLen, this, Nat.zero_add]
  exact (congrArg List.sum (List.map_congr_left (fun a _ => rfl))).symm

theorem lruGet_of_none {K V : Type} [DecidableEq K] {cache : List (K × V)} {k : K}
    (h : findVal cache k = none) : lruGet cache k = (none, cache) := by
  simp [lruGet, h]

theorem lruGet_of_some {K V : Type} [DecidableEq K] {cache : List (K × V)} {k : K} {v : V}
    (h : findVal cache k = some v) :
    lruGet cache k = (some v, eraseKey cache k ++ [(k, v)]) := by
  simp [lruGet, h]

theorem findVal_lruSet_self {K V : Type} [DecidableEq K] {cache : List (K × V)} {k : K}
    (cap : Nat) (v : V) (h : findVal cache k = none) :
    findVal (lruSet cap cache k v) k = some v := by
  have habs : k ∉ cache.map Prod.fst := (findVal_eq_none_iff cache k).1 h
  have htail : findVal cache.tail k = none := by
    rw [findVal_eq_none_iff]
    intro hmem
    exact habs (((List.tail_sublist cache).map Prod.fst).mem hmem)
  simp only [lruSet, h, Option.isSome_none, Bool.false_eq_true, if_false]
  by_cases hc : cap ≤ cache.length
  · simp only [hc, if_true]
    rw [findVal_append, htail]
    simp [findVal]
  · simp only [hc, if_false]
    rw [findVal_append, h]
    simp [findVal]

/-- C6: the digest cache key is the algorithm tag plus the concatenation
of all update chunks: two wrapped hashes with the same algorithm whose
concatenated update inputs are equal produce the same cache key, the
second digest is served from the entry the first stored (so the digests
are equal), and whenever the accumulated input length is at least 10000
characters the cache is bypassed entirely — the digest always invokes
the original digest and the cache is left untouched. -/
theorem C6_digest_key_and_bypass {E : Type}
    (digestFn : String → String → String → Except E String)
    (cache : List (String × String)) (algorithm : String)
    (chunks1 chunks2 : List String) (enc1 enc2 : String) (v : String)
    (hjoin : String.join chunks1 = String.join chunks2)
    (hlen : totalLen chunks1 < 10000)
    (hmiss : findVal cache (hashCacheKey algorithm chunks1) = none)
    (hok : digestFn algorithm (String.join chunks1) enc1 = Except.ok v) :
    hashCacheKey algorithm chunks1 = hashCacheKey algorithm chunks2
    ∧ (hashDigest digestFn cache algorithm chunks1 enc1).1 = Except.ok v
    ∧ (hashDigest digestFn (hashDigest digestFn cache algorithm chunks1 enc1).2
        algorithm chunks2 enc2).1 = Except.ok v
    ∧ (∀ (cache' : List (String × String)) (chunks : List String) (enc : String),
        10000 ≤ totalLen chunks →
        (hashDigest digestFn cache' algorithm chunks enc).2 = cache'
        ∧ (hashDigest digestFn cache' algorithm chunks enc).1 =
            digestFn algorithm (String.join chunks) enc) := by
  have hkey : hashCacheKey algorithm chunks1 = hashCacheKey algorithm chunks2 := by
    simp [hashCacheKey, hjoin]
  have hlen2 : totalLen chunks2 < 10000 := by
    rw [totalLen_eq_length_join, ← hjoin, ← totalLen_eq_length_join]
    exact hlen
  have hc1 : hashDigest digestFn cache algorithm chunks1 enc1 =
      (Except.ok v, lruSet 500 cache (hashCacheKey algorithm chunks1) v) := by
    simp [hashDigest, hlen, lruGet_of_none hmiss, hok]
  have hfind2 : findVal (lruSet 500 cache (hashCacheKey algorithm chunks1) v)
      (hashCacheKey algorithm chunks2) = some v :=
    hkey ▸ findVal_lruSet_self 500 v hmiss
  refine ⟨hkey, by rw [hc1], ?_, ?_⟩
  · rw [hc1]
    simp [hashDigest, hlen2, lruGet_of_some hfind2]
  · intro cache' chunks enc h10
    have hnot : ¬ totalLen chunks < 10000 := by omega
    refine ⟨?_, ?_⟩ <;>
      cases hd : digestFn algorithm (String.join chunks) enc <;>
        simp [hashDigest, hnot, hd]

def digestFnDemo (algorithm input encoding : String) : Except String String :=
  Except.ok (algorithm ++ "-" ++ input ++ "-" ++ encoding)

def bigChunk : String := String.mk (List.replicate 10000 'a')

/-- C6 witness: the theorem applied to two concrete wrapped hashes with
equal concatenated input split into different chunks and different
requested encodings, plus a 10000-character chunk that bypasses the
cache. -/
theorem C6_digest_witness :
    hashCacheKey "sha256" ["ab", "c"] = hashCacheKey "sha256" ["abc"]
    ∧ (hashDigest digestFnDemo [] "sha256" ["ab", "c"] "hex").1 =
        Except.ok "sha256-abc-hex"
    ∧ (hashDigest digestFnDemo (hashDigest digestFnDemo [] "sha256" ["ab", "c"] "hex").2
        "sha256" ["abc"] "base64").1 = Except.ok "sha256-abc-hex"
    ∧ ((hashDigest digestFnDemo [] "sha256" [bigChunk] "hex").2 = []
       ∧ (hashDigest digestFnDemo [] "sha256" [bigChunk] "hex").1 =
           digestFnDemo "sha256" (String.join [bigChunk]) "hex") := by
  obtain ⟨h1, h2, h3, h4⟩ := C6_digest_key_and_bypass digestFnDemo [] "sha256"
    ["ab", "c"] ["abc"] "hex" "base64" "sha256-abc-hex"
    (by decide) (by decide) (by decide) (by decide)
  have hblen : bigChunk.length = 10000 := by
    have hdata : bigChunk.length = (List.replicate 10000 'a').length := rfl
    rw [hdata, List.length_replicate]
  have hbig : 10000 ≤ totalLen [bigChunk] := by
    simp only [totalLen, List.foldl_cons, List.foldl_nil, Nat.zero_add, hblen]
    exact Nat.le_refl _
  exact ⟨h1, h2, h3, h4 [] [bigChunk] "hex" hbig⟩

/-- C10: the digest cache key contains only the algorithm and the
accumulated input, not the requested output encoding: for accumulated
input shorter than 10000 characters, a second digest call with the same
algorithm and chunks but a different encoding argument returns exactly
the value the first call cached, whose representation was determined by
the first call's encoding. -/
theorem C10_digest_encoding_ignored {E : Type}
    (digestFn : String → String → String → Except E String)
    (cache : List (String × String)) (algorithm : String) (chunks : List String)
    (enc1 enc2 : String) (v : String)
    (_hne : enc1 ≠ enc2)
    (hlen : totalLen chunks < 10000)
    (hmiss : findVal cache (hashCacheKey algorithm chunks) = none)
    (hok : digestFn algorithm (String.join chunks) enc1 = Except.ok v) :
    (hashDigest digestFn cache algorithm chunks enc1).1 = Except.ok v
    ∧ (hashDigest digestFn (hashDigest digestFn cache algorithm chunks enc1).2
        algorithm chunks enc2).1 = Except.ok v := by
  have hc1 : hashDigest digestFn cache algorithm chunks enc1 =
      (Except.ok v, lruSet 500 cache (hashCacheKey algorithm chunks) v) := by
    simp [hashDigest, hlen, lruGet_of_none hmiss, hok]
  have hfind2 : findVal (lruSet 500 cache (hashCacheKey algorithm chunks) v)
      (hashCacheKey algorithm chunks) = some v :=
    findVal_lruSet_self 500 v hmiss
  refine ⟨by rw [hc1], ?_⟩
  rw [hc1]
  simp [hashDigest, hlen, lruGet_of_some hfind2]

/-- C10 witness: with the abstract digest producing an encoding-tagged
string, the second call with encoding "base64" still returns the "hex"
representation cached by the first call. -/
theorem C10_digest_encoding_witness :
    (hashDigest digestFnDemo [] "md5" ["xy"] "hex").1 = Except.ok "md5-xy-hex"
    ∧ (hashDigest digestFnDemo (hashDigest digestFnDemo [] "md5" ["xy"] "hex").2
        "md5" ["xy"] "base64").1 = Except.ok "md5-xy-hex" :=
  C10_digest_encoding_ignored digestFnDemo [] "md5" ["xy"] "hex" "base64" "md5-xy-hex"
    (by decide) (by decide) (by decide) (by decide)

/-- C7: when the wrapped original throws, the wrapper propagates that
same exception unchanged and stores no cache entry: a failing original
digest leaves the digest cache exactly as it was, a failing original
parse leaves the parse adapter state exactly as it was, and in both
cases a subsequent identical call reaches the original implementation
again (here instantiated with an original that now succeeds, whose
result is returned). -/
theorem C7_error_propagation {E : Type}
    (digestFn : String → String → String → Except E String)
    (cache : List (String × String)) (algorithm : String) (chunks : List String)
    (enc : String) (e : E)
    (parse0 : String → Heap → Except E (JVal × Heap)) (st : ParseState) (text : String)
    (e2 : E)
    (hd : digestFn algorithm (String.join chunks) enc = Except.error e)
    (hmiss : findVal cache (hashCacheKey algorithm chunks) = none)
    (hp : parse0 text st.heap = Except.error e2)
    (hpmiss : findVal st.cache text = none) :
    hashDigest digestFn cache algorithm chunks enc = (Except.error e, cache)
    ∧ patchedParse parse0 st text = (Except.error e2, st)
    ∧ (∀ (digestFn2 : String → String → String → Except E String) (v : String),
        digestFn2 algorithm (String.join chunks) enc = Except.ok v →
        (hashDigest digestFn2 cache algorithm chunks enc).1 = Except.ok v)
    ∧ (∀ (parse02 : String → Heap → Except E (JVal × Heap)) (v : JVal) (h2 : Heap),
        parse02 text st.heap = Except.ok (v, h2) →
        (patchedParse parse02 st text).1 = Except.ok v) := by
  refine ⟨?_, ?_, ?_, ?_⟩
  · by_cases hl : totalLen chunks < 10000 <;>
      simp [hashDigest, hl, lruGet_of_none hmiss, hd]
  · simp [patchedParse, lruGet_of_none hpmiss, hp]
  · intro digestFn2 v hok
    by_cases hl : totalLen chunks < 10000 <;>
      simp [hashDigest, hl, lruGet_of_none hmiss, hok]
  · intro parse02 v h2 hok
    simp [patchedParse, lruGet_of_none hpmiss, hok]

def digestFnFail (_algorithm _input _encoding : String) : Except String String :=
  Except.error "digest backend failure"

def parse0Fail (_text : String) (_h : Heap) : Except String (JVal × Heap) :=
  Except.error "unexpected token"

/-- C7 witness: the theorem applied to concrete failing originals on an
empty cache and empty adapter state; the subsequent calls are
instantiated with concrete succeeding originals. -/
theorem C7_error_propagation_witness :
    hashDigest digestFnFail [] "sha256" ["ab"] "hex" =
      (Except.error "digest backend failure", [])
    ∧ patchedParse parse0Fail emptyParseState "t" =
      (Except.error "unexpected token", emptyParseState)
    ∧ (hashDigest digestFnDemo [] "sha256" ["ab"] "hex").1 = Except.ok "sha256-ab-hex"
    ∧ (patchedParse parse0Demo emptyParseState "t").1 = Except.ok (JVal.ref 0) := by
  obtain ⟨h1, h2, h3, h4⟩ := C7_error_propagation digestFnFail [] "sha256" ["ab"] "hex"
    "digest backend failure" parse0Fail emptyParseState "t" "unexpected token"
    rfl (by decide) rfl (by decide)
  exact ⟨h1, h2, h3 digestFnDemo "sha256-ab-hex" rfl,
    h4 parse0Demo (JVal.ref 0) (patchedParse parse0Demo emptyParseState "t").2.heap
      (by decide)⟩

/-! ### Pattern-matcher compilation cache (PatchedRegExp)

Translation of `globalThis.RegExp = function PatchedRegExp(pattern,
flags)` (src/unnamed/part_001, lines 265-291), restricted to string
patterns (non-string patterns pass through to the original
constructor).  Compiled matchers are mutable objects (their
`lastIndex` scan position changes during matching), so they live in an
explicit heap; the plain `Map` cache stores the matcher's address under
the key `pattern + NUL + flags` and evicts its oldest entry (first
insertion-order key, with no recency promotion) when it holds 200
entries.  On a hit for a matcher whose global or sticky flag is set,
the matcher's `lastIndex` is assigned 0 before the cached matcher is
returned. -/

structure RegexObj where
  pattern : String
  flags : String
  global : Bool
  sticky : Bool
  lastIndex : Nat
  deriving DecidableEq

structure RegexState where
  heap : List (Nat × RegexObj)
  next : Nat
  cache : List (String × Nat)
  deriving DecidableEq

def regexKey (pattern flags : String) : String :=
  pattern ++ "\x00" ++ flags

def compileRegex (pattern flags : String) : RegexObj :=
  ⟨pattern, flags, flags.data.contains 'g', flags.data.contains 'y', 0⟩

def resetLastIndex (h : List (Nat × RegexObj)) (a : Nat) : List (Nat × RegexObj) :=
  h.map (fun p => if p.1 = a then (p.1, { p.2 with lastIndex := 0 }) else p)

def PatchedRegExp (st : RegexState) (pattern flags : String) : Nat × RegexState :=
  match findVal st.cache (regexKey pattern flags) with
  | some a =>
    match findVal st.heap a with
    | some r =>
      if r.global || r.sticky then
        (a, ⟨resetLastIndex st.heap a, st.next, st.cache⟩)
      else
        (a, st)
    | none => (a, st)
  | none =>
    let cache' := if 200 ≤ st.cache.length then st.cache.tail else st.cache
    (st.next, ⟨st.heap ++ [(st.next, compileRegex pattern flags)], st.next + 1,
      cache' ++ [(regexKey pattern flags, st.next)]⟩)

theorem findVal_resetLastIndex_self (h : List (Nat × RegexObj)) (a : Nat) (r : RegexObj)
    (hr : findVal h a = some r) :
    findVal (resetLastIndex h a) a = some { r with lastIndex := 0 } := by
  induction h with
  | nil => simp [findVal] at hr
  | cons p rest ih =>
    by_cases hp : p.1 = a
    · simp only [findVal, hp, if_pos] at hr
      have hpr := Option.some.inj hr
      subst hpr
      simp only [resetLastIndex, List.map_cons]
      rw [if_pos hp]
      simp only [findVal]
      rw [if_pos hp]
    · simp only [findVal, hp, if_neg, not_false_iff] at hr
      simp only [resetLastIndex, List.map_cons, hp, if_neg, not_false_iff]
      simpa [findVal, hp, resetLastIndex] using ih hr

/-- C5: a cache hit in the patched RegExp constructor for a stateful
matcher (global or sticky flag set) returns the cached matcher with its
lastIndex position reset to 0, regardless of where a previous match
sequence left that position, so a second match sequence using the same
cached pattern starts matching from position zero. -/
theorem C5_regex_reset (st : RegexState) (pattern flags : String) (a : Nat) (r : RegexObj)
    (hc : findVal st.cache (regexKey pattern flags) = some a)
    (hr : findVal st.heap a = some r)
    (hstateful : r.global = true ∨ r.sticky = true) :
    (PatchedRegExp st pattern flags).1 = a
    ∧ findVal (PatchedRegExp st pattern flags).2.heap a =
        some { r with lastIndex := 0 } := by
  have hgs : (r.global || r.sticky) = true := by
    rcases hstateful with h | h <;> simp [h]
  refine ⟨?_, ?_⟩ <;>
    simp [PatchedRegExp, hc, hr, hgs, findVal_resetLastIndex_self st.heap a r hr]

def regexEmpty : RegexState := ⟨[], 0, []⟩

def regexStateDemo : RegexState :=
  ⟨(PatchedRegExp regexEmpty "a+" "g").2.heap.map
      (fun p => if p.1 = 0 then (p.1, { p.2 with lastIndex := 5 }) else p),
    (PatchedRegExp regexEmpty "a+" "g").2.next,
    (PatchedRegExp regexEmpty "a+" "g").2.cache⟩

/-- C5 witness: after constructing a global matcher once (a miss) and
advancing its scan position to 5 as a match sequence would, a second
construction of the same pattern is a cache hit that returns the same
matcher with lastIndex reset to 0. -/
theorem C5_regex_reset_witness :
    (PatchedRegExp regexStateDemo "a+" "g").1 = 0
    ∧ findVal (PatchedRegExp regexStateDemo "a+" "g").2.heap 0 =
        some { pattern := "a+", flags := "g", global := true, sticky := false,
               lastIndex := 0 } :=
  C5_regex_reset regexStateDemo "a+" "g" 0
    { pattern := "a+", flags := "g", global := true, sticky := false, lastIndex := 5 }
    (by decide) (by decide) (Or.inl rfl)

/-! ### Tiered buffer pool (acquireBuffer / releaseBuffer)

Translation of the `__bufferPools` trio and `acquireBuffer` /
`releaseBuffer` (src/unnamed/part_001, lines 789-818).  A buffer is its
byte contents; `Buffer.allocUnsafe` returns memory with arbitrary prior
contents, modelled by an uninterpreted `junk` allocator supplying a
list of the requested length; `buf.fill(0)` produces an all-zero buffer
of the same length; `buf.slice(0, size)` is `take size`; a JS array's
`push`/`pop` work at the same end, modelled with the head of the list
as the top of the free-list stack.  `getBufferPool` selects the
smallest tier whose size class is at least the requested size, and
`none` above the largest class. -/

structure Tier where
  size : Nat
  pool : List (List Nat)
  max : Nat
  deriving DecidableEq

structure BufPools where
  small : Tier
  medium : Tier
  large : Tier
  deriving DecidableEq

inductive TierId where
  | small
  | medium
  | large
  deriving DecidableEq

def initPools : BufPools :=
  ⟨⟨256, [], 50⟩, ⟨4096, [], 20⟩, ⟨65536, [], 10⟩⟩

def getTier (p : BufPools) : TierId → Tier
  | TierId.small => p.small
  | TierId.medium => p.medium
  | TierId.large => p.large

def setTier (p : BufPools) : TierId → Tier → BufPools
  | TierId.small, t => { p with small := t }
  | TierId.medium, t => { p with medium := t }
  | TierId.large, t => { p with large := t }

def getBufferPool (p : BufPools) (size : Nat) : Option TierId :=
  if size ≤ p.small.size then some TierId.small
  else if size ≤ p.medium.size then some TierId.medium
  else if size ≤ p.large.size then some TierId.large
  else none

def acquireBuffer (junk : Nat → List Nat) (p : BufPools) (size : Nat) :
    List Nat × BufPools :=
  match getBufferPool p size with
  | none => (junk size, p)
  | some tid =>
    let tier := getTier p tid
    match tier.pool with
    | [] => ((junk tier.size).take size, p)
    | buf :: rest =>
      let p' := setTier p tid { tier with pool := rest }
      if size ≤ buf.length then (buf.take size, p') else (junk size, p')

def releaseBuffer (p : BufPools) (buf : List Nat) : BufPools :=
  match getBufferPool p buf.length with
  | none => p
  | some tid =>
    let tier := getTier p tid
    if tier.max ≤ tier.pool.length then p
    else setTier p tid { tier with pool := List.replicate buf.length 0 :: tier.pool }

def AllZero (buf : List Nat) : Prop := ∀ b ∈ buf, b = 0

def PoolsZero (p : BufPools) : Prop :=
  ∀ tid : TierId, ∀ buf ∈ (getTier p tid).pool, AllZero buf

theorem getBufferPool_le_size {p : BufPools} {size : Nat} {tid : TierId}
    (h : getBufferPool p size = some tid) : size ≤ (getTier p tid).size := by
  simp only [getBufferPool] at h
  by_cases h1 : size ≤ p.small.size
  · simp only [h1, if_pos] at h
    cases h
    exact h1
  · simp only [h1, if_neg, not_false_iff] at h
    by_cases h2 : size ≤ p.medium.size
    · simp only [h2, if_pos] at h
      cases h
      exact h2
    · simp only [h2, if_neg, not_false_iff] at h
      by_cases h3 : size ≤ p.large.size
      · simp only [h3, if_pos] at h
        cases h
        exact h3
      · simp [h3] at h

theorem getTier_setTier_same (p : BufPools) (tid : TierId) (t : Tier) :
    getTier (setTier p tid t) tid = t := by
  cases tid <;> rfl

theorem pool_mem_setTier {p : BufPools} {tid tid2 : TierId} {t : Tier}
    {buf : List Nat} (h : buf ∈ (getTier (setTier p tid t) tid2).pool) :
    buf ∈ t.pool ∨ buf ∈ (getTier p tid2).pool := by
  cases tid <;> cases tid2 <;> simp [getTier, setTier] at h ⊢ <;> tauto

/-- C9 (amended): a release whose buffer length falls in a tier zeroes
the buffer and pushes it onto that tier's free list, and the accepted
buffer's length is at most (not at least) the tier's size class; the
all-zero invariant of pooled buffers is preserved by release; a release
when the matching tier is already at its maximum discards the buffer
and leaves the pools unchanged; and an acquire served from a free list
(non-empty free list whose top buffer is long enough) returns an
entirely zero-filled buffer.  (The original claim's "length at least
the tier's size class" is false: tiers are selected by
`length ≤ sizeClass`, so a released short buffer enters a tier whose
size class exceeds its length — see the counterexample.) -/
theorem C9_pool_amended (junk : Nat → List Nat) (p : BufPools) (buf : List Nat)
    (size : Nat) (hz : PoolsZero p) :
    PoolsZero (releaseBuffer p buf)
    ∧ (∀ tid, getBufferPool p buf.length = some tid →
        (getTier p tid).pool.length < (getTier p tid).max →
        (getTier (releaseBuffer p buf) tid).pool.head? =
          some (List.replicate buf.length 0)
        ∧ AllZero (List.replicate buf.length 0)
        ∧ buf.length ≤ (getTier p tid).size)
    ∧ (∀ tid, getBufferPool p buf.length = some tid →
        (getTier p tid).max ≤ (getTier p tid).pool.length →
        releaseBuffer p buf = p)
    ∧ (∀ tid buf0 rest, getBufferPool p size = some tid →
        (getTier p tid).pool = buf0 :: rest → size ≤ buf0.length →
        (acquireBuffer junk p size).1 = buf0.take size
        ∧ AllZero (acquireBuffer junk p size).1) := by
  refine ⟨?_, ?_, ?_, ?_⟩
  · unfold releaseBuffer
    cases hg : getBufferPool p buf.length with
    | none => exact hz
    | some tid =>
      by_cases hm : (getTier p tid).max ≤ (getTier p tid).pool.length
      · simp only [hm, if_pos]
        exact hz
      · simp only [hm, if_neg, not_false_iff]
        intro tid2 b hb
        rcases pool_mem_setTier hb with hb | hb
        · rcases List.mem_cons.1 hb with hb | hb
          · subst hb
            intro x hx
            exact List.eq_of_mem_replicate hx
          · exact hz tid b hb
        · exact hz tid2 b hb
  · intro tid hg hlt
    have hm : ¬ (getTier p tid).max ≤ (getTier p tid).pool.length := by omega
    refine ⟨?_, fun x hx => List.eq_of_mem_replicate hx, getBufferPool_le_size hg⟩
    simp only [releaseBuffer, hg, hm, if_neg, not_false_iff, getTier_setTier_same]
    rfl
  · intro tid hg hm
    simp [releaseBuffer, hg, hm]
  · intro tid buf0 rest hg hpool hle
    have hres : (acquireBuffer junk p size).1 = buf0.take size := by
      simp [acquireBuffer, hg, hpool, hle]
    refine ⟨hres, ?_⟩
    rw [hres]
    intro x hx
    have hx0 : x ∈ buf0 := (List.take_sublist size buf0).mem hx
    have hb0 : buf0 ∈ (getTier p tid).pool := by
      rw [hpool]
      exact List.mem_cons_self _ _
    exact hz tid buf0 hb0 x hx0

/-- C9 counterexample: releasing a buffer of length 10 pools it in the
small tier, whose size class is 256, so the accepted buffer's length is
not at least the tier's size class as the claim states. -/
theorem C9_pool_counterexample :
    (releaseBuffer initPools (List.replicate 10 1)).small.pool =
      [List.replicate 10 0]
    ∧ (releaseBuffer initPools (List.replicate 10 1)).small.size = 256
    ∧ ¬ (256 ≤ (List.replicate (10 : Nat) 0).length) := by
  decide

def demoPools : BufPools := releaseBuffer initPools (List.replicate 10 0)

/-- C9 witness: the amended theorem applied to concrete pools — a
released length-10 buffer is pooled zeroed in the small tier, and a
subsequent acquire of size 10 served from that free list returns an
entirely zero-filled buffer. -/
theorem C9_pool_witness :
    (getTier (releaseBuffer initPools (List.replicate 10 0)) TierId.small).pool.head?
        = some (List.replicate 10 0)
    ∧ (10 : Nat) ≤ (getTier initPools TierId.small).size
    ∧ (acquireBuffer (fun n => List.replicate n 7) demoPools 10).1 =
        (List.replicate 10 0).take 10
    ∧ AllZero (acquireBuffer (fun n => List.replicate n 7) demoPools 10).1 := by
  have hz0 : PoolsZero initPools := by
    intro tid b hb
    cases tid <;> simp [initPools, getTier] at hb
  obtain ⟨hz1, hacc, _, _⟩ := C9_pool_amended (fun n => List.replicate n 7) initPools
    (List.replicate 10 0) 10 hz0
  obtain ⟨_, _, _, hacq⟩ := C9_pool_amended (fun n => List.replicate n 7) demoPools
    (List.replicate 10 0) 10 hz1
  have h10 : (List.replicate (10 : Nat) 0).length = 10 := by decide
  refine ⟨?_, ?_, ?_, ?_⟩
  · have := (hacc TierId.small (by decide) (by decide)).1
    rwa [h10] at this
  · have := (hacc TierId.small (by decide) (by decide)).2.2
    rwa [h10] at this
  · exact (hacq TierId.small (List.replicate 10 0) [] (by decide) (by decide)
      (by decide)).1
  · exact (hacq TierId.small (List.replicate 10 0) [] (by decide) (by decide)
      (by decide)).2

/-! ### Async batcher (__AsyncBatcher)

Translation of `class __AsyncBatcher` (src/unnamed/part_001, lines
823-865) for a single key, with `maxBatchSize` as a parameter and the
1 ms flush window timer modelled as a flag (`timerSet`) plus an
explicit timer-expiry event (`timerFire`), since execution is
single-threaded and the callback only runs if the timer was not
cancelled by an earlier size-triggered flush.  `batch` pushes the item
and either flushes immediately (size threshold reached) or arms the
window timer if none is pending.  `_flush` cancels the pending timer,
returns early if the window is empty, and otherwise invokes the batch
operation once on all accumulated inputs; on success each waiting
caller is resolved with `results?.[index]` (the result at its item's
position, absent if out of range), on failure every caller is rejected
with the same error.  `flushes` and `outcomes` record, per flush, the
invocation's input list and the values the waiting callers receive. -/

structure BatchState (D R E : Type) where
  pending : List D
  timerSet : Bool
  flushes : List (List D)
  outcomes : List (List (Except E (Option R)))
  deriving DecidableEq

def mkOutcomes {D R E : Type} (op : List D → Except E (List R)) (batch : List D) :
    List (Except E (Option R)) :=
  match op batch with
  | Except.ok rs => (List.range batch.length).map (fun i => Except.ok rs[i]?)
  | Except.error e => batch.map (fun _ => Except.error e)

def doFlush {D R E : Type} (op : List D → Except E (List R)) (s : BatchState D R E) :
    BatchState D R E :=
  if s.pending.isEmpty then
    { s with timerSet := false }
  else
    { pending := [], timerSet := false, flushes := s.flushes ++ [s.pending],
      outcomes := s.outcomes ++ [mkOutcomes op s.pending] }

def enqueue {D R E : Type} (maxBatchSize : Nat) (op : List D → Except E (List R))
    (s : BatchState D R E) (d : D) : BatchState D R E :=
  let s' := { s with pending := s.pending ++ [d] }
  if maxBatchSize ≤ s'.pending.length then
    doFlush op s'
  else if s'.timerSet then
    s'
  else
    { s' with timerSet := true }

def timerFire {D R E : Type} (op : List D → Except E (List R))
    (s : BatchState D R E) : BatchState D R E :=
  if s.timerSet then doFlush op s else s

def enqueueAll {D R E : Type} (maxBatchSize : Nat) (op : List D → Except E (List R)) :
    BatchState D R E → List D → BatchState D R E
  | s, [] => s
  | s, d :: ds => enqueueAll maxBatchSize op (enqueue maxBatchSize op s d) ds

theorem enqueueAll_append {D R E : Type} (maxBatchSize : Nat)
    (op : List D → Except E (List R)) (L1 L2 : List D) :
    ∀ s : BatchState D R E,
      enqueueAll maxBatchSize op s (L1 ++ L2) =
        enqueueAll maxBatchSize op (enqueueAll maxBatchSize op s L1) L2 := by
  induction L1 with
  | nil => intro s; rfl
  | cons d L1 ih =>
    intro s
    simp only [List.cons_append, enqueueAll]
    exact ih _

theorem enqueue_no_flush {D R E : Type} (maxBatchSize : Nat)
    (op : List D → Except E (List R)) (s : BatchState D R E) (d : D)
    (h : s.pending.length + 1 < maxBatchSize) :
    enqueue maxBatchSize op s d =
      ⟨s.pending ++ [d], true, s.flushes, s.outcomes⟩ := by
  have hnf : ¬ maxBatchSize ≤ (s.pending ++ [d]).length := by
    rw [List.length_append]
    simp only [List.length_singleton]
    omega
  simp only [enqueue, hnf, if_neg, not_false_iff]
  cases hts : s.timerSet <;> simp [hts]

theorem enqueueAll_no_flush {D R E : Type} (maxBatchSize : Nat)
    (op : List D → Except E (List R)) :
    ∀ (L : List D) (s : BatchState D R E),
      s.pending.length + L.length < maxBatchSize →
      enqueueAll maxBatchSize op s L =
        ⟨s.pending ++ L, s.timerSet || !L.isEmpty, s.flushes, s.outcomes⟩ := by
  intro L
  induction L with
  | nil =>
    intro s _
    cases s
    simp [enqueueAll]
  | cons d L ih =>
    intro s hlen
    simp only [List.length_cons] at hlen
    have hstep := enqueue_no_flush maxBatchSize op s d (by omega)
    simp only [enqueueAll, hstep]
    have := ih ⟨s.pending ++ [d], true, s.flushes, s.outcomes⟩
      (by simp only [List.length_append, List.length_singleton]; omega)
    rw [this]
    simp

theorem enqueueAll_fill {D R E : Type} (maxBatchSize : Nat)
    (op : List D → Except E (List R)) (hmax : 1 ≤ maxBatchSize)
    (L : List D) (s : BatchState D R E) (hp : s.pending = [])
    (hlen : L.length = maxBatchSize) :
    enqueueAll maxBatchSize op s L =
      ⟨[], false, s.flushes ++ [L], s.outcomes ++ [mkOutcomes op L]⟩ := by
  have hne : L ≠ [] := by
    intro h
    rw [h] at hlen
    simp at hlen
    omega
  have hdl : L.dropLast.length = maxBatchSize - 1 := by
    rw [List.length_dropLast, hlen]
  have hsplit : L = L.dropLast ++ [L.getLast hne] :=
    (List.dropLast_append_getLast hne).symm
  conv_lhs => rw [hsplit]
  rw [enqueueAll_append]
  rw [enqueueAll_no_flush maxBatchSize op L.dropLast s (by rw [hp]; simp; omega)]
  rw [hp]
  simp only [List.nil_append, enqueueAll, enqueue]
  have hfull : maxBatchSize ≤ (L.dropLast ++ [L.getLast hne]).length := by
    simp only [List.length_append, List.length_singleton, hdl]
    omega
  simp only [hfull, if_pos]
  have hne2 : (L.dropLast ++ [L.getLast hne]).isEmpty = false := by simp
  simp only [doFlush, hne2, Bool.false_eq_true, if_false]
  rw [← hsplit]

/-- C8: for the async batcher with maximum batch size 100, enqueuing 150
items on one key produces exactly two flushes once the window timer
fires — the first of the first 100 items, the second of the remaining
50; enqueuing 3 items leaves the window pending (no flush) until the
timer fires, which flushes exactly once with all three items; each
flush invokes the batch operation once with the accumulated inputs and
resolves the waiting caller at position i with the result at position
i; and when the batch operation fails, every waiting caller of that
flush receives the same failure. -/
theorem C8_async_batcher {D R E : Type} (op : List D → Except E (List R))
    (L M : List D) (hL : L.length = 150) (hM : M.length = 3) :
    timerFire op (enqueueAll 100 op ⟨[], false, [], []⟩ L) =
      ⟨[], false, [L.take 100, L.drop 100],
        [mkOutcomes op (L.take 100), mkOutcomes op (L.drop 100)]⟩
    ∧ (L.take 100).length = 100
    ∧ (L.drop 100).length = 50
    ∧ (enqueueAll 100 op ⟨[], false, [], []⟩ M).flushes = []
    ∧ (enqueueAll 100 op ⟨[], false, [], []⟩ M).timerSet = true
    ∧ timerFire op (enqueueAll 100 op ⟨[], false, [], []⟩ M) =
        ⟨[], false, [M], [mkOutcomes op M]⟩
    ∧ (∀ (batch : List D) (rs : List R), op batch = Except.ok rs →
        (mkOutcomes op batch).length = batch.length
        ∧ ∀ i, i < batch.length → (mkOutcomes op batch)[i]? = some (Except.ok rs[i]?))
    ∧ (∀ (batch : List D) (e : E), op batch = Except.error e →
        (mkOutcomes op batch).length = batch.length
        ∧ ∀ o ∈ mkOutcomes op batch, o = Except.error e) := by
  have htake : (L.take 100).length = 100 := by simp [List.length_take, hL]
  have hdrop : (L.drop 100).length = 50 := by simp [List.length_drop, hL]
  have hdne : (L.drop 100).isEmpty = false := by
    cases hd : L.drop 100
    · rw [hd] at hdrop
      simp at hdrop
    · simp
  have hMne : M.isEmpty = false := by
    cases hm : M
    · rw [hm] at hM
      simp at hM
    · simp
  have hsB := enqueueAll_no_flush 100 op M ⟨[], false, [], []⟩ (by simp [hM])
  refine ⟨?_, htake, hdrop, ?_, ?_, ?_, ?_, ?_⟩
  · have hs1 := enqueueAll_fill 100 op (by omega) (L.take 100)
      ⟨[], false, [], []⟩ rfl htake
    have hs2 := enqueueAll_no_flush 100 op (L.drop 100)
      ⟨[], false, [] ++ [L.take 100], [] ++ [mkOutcomes op (L.take 100)]⟩
      (by simp [hdrop])
    have hsplitL : enqueueAll 100 op (⟨[], false, [], []⟩ : BatchState D R E) L =
        enqueueAll 100 op (enqueueAll 100 op ⟨[], false, [], []⟩ (L.take 100))
          (L.drop 100) := by
      conv_lhs => rw [← List.take_append_drop 100 L]
      exact enqueueAll_append 100 op _ _ _
    rw [hsplitL, hs1, hs2]
    simp [timerFire, doFlush, hdne]
  · rw [hsB]
  · rw [hsB]
    simp [hMne]
  · rw [hsB]
    simp [timerFire, doFlush, hMne]
  · intro batch rs hop
    constructor
    · simp [mkOutcomes, hop]
    · intro i hi
      simp [mkOutcomes, hop, List.getElem?_map, List.getElem?_range, hi]
  · intro batch e hop
    constructor
    · simp [mkOutcomes, hop]
    · intro o ho
      simp only [mkOutcomes, hop] at ho
      obtain ⟨x, _, rfl⟩ := List.mem_map.1 ho
      rfl

def batchOpDemo (ds : List Nat) : Except String (List Nat) :=
  Except.ok (ds.map (fun d => d * 2))

def batchOpFail (_ds : List Nat) : Except String (List Nat) :=
  Except.error "batch backend failure"

/-- C8 witness: the theorem applied to 150 concrete items (two flushes:
100 then 50), to 3 concrete items (one flush after the timer fires,
with the caller at position 1 resolved with the doubling operation's
result at position 1), and to a failing batch operation (every caller
of the flush receives the same failure). -/
theorem C8_async_batcher_witness :
    timerFire batchOpDemo (enqueueAll 100 batchOpDemo ⟨[], false, [], []⟩
        (List.range 150)) =
      ⟨[], false, [(List.range 150).take 100, (List.range 150).drop 100],
        [mkOutcomes batchOpDemo ((List.range 150).take 100),
         mkOutcomes batchOpDemo ((List.range 150).drop 100)]⟩
    ∧ (enqueueAll 100 batchOpDemo ⟨[], false, [], []⟩ [5, 6, 7]).flushes = []
    ∧ timerFire batchOpDemo (enqueueAll 100 batchOpDemo ⟨[], false, [], []⟩
        [5, 6, 7]) = ⟨[], false, [[5, 6, 7]], [mkOutcomes batchOpDemo [5, 6, 7]]⟩
    ∧ (mkOutcomes batchOpDemo [5, 6, 7])[1]? = some (Except.ok (some 12))
    ∧ (∀ o ∈ mkOutcomes batchOpFail [5, 6, 7],
        o = Except.error "batch backend failure") := by
  obtain ⟨hA, _, _, hB1, _, hB2, hPos, _⟩ :=
    C8_async_batcher batchOpDemo (List.range 150) [5, 6, 7] (by simp) (by decide)
  obtain ⟨_, _, _, _, _, _, _, hFail⟩ :=
    C8_async_batcher batchOpFail (List.range 150) [5, 6, 7] (by simp) (by decide)
  refine ⟨hA, hB1, hB2, ?_, (hFail [5, 6, 7] "batch backend failure" rfl).2⟩
  have hone := (hPos [5, 6, 7] [10, 12, 14] rfl).2 1 (by decide)
  simpa using hone
